import Mathlib

/-!
# Verification of the fork-off-substrate state-fetch script

Shallow embedding of `src/index.js` (darwinia-network/fork-off-substrate).
The script clones the persistent key-value state of a live Substrate node:
it partitions the key namespace into byte-prefix chunks (`fetchChunks`,
recursive case), pages through each chunk's keys (`state_getKeysPaged`,
page size 512), bulk-fetches the values (`state_queryStorageAt`), and
streams the pairs to `storage.json` as one incrementally written JSON
array.  A final splice step copies an allow-listed subset of the snapshot
into a freshly generated dev chain specification.

Conventions of the embedding:
* Keys, values and key-space prefixes are hex `String`s, exactly as the
  script manipulates them.  A storage value is `Option String`; `none`
  models JSON `null` (and JS `undefined`, which `JSON.stringify` also
  renders as `null` inside arrays).
* The remote node is an explicit `Endpoint` record of pure functions; every
  RPC issued by the script is recorded in an `Rpc` log inside the threaded
  state `St`, which also carries the output stream contents (`written`),
  the shared separator flag, the progress counters and the warning log.
* The unbounded `while (key_count == page)` loop is embedded with explicit
  fuel; theorems assume enough fuel, which is what termination of the JS
  loop against a well-behaved endpoint amounts to.
-/

namespace ForkOff

/-- A fetched key-value pair: hex key, hex value or `null`. -/
abbrev Pair := String × Option String

/-- JSON rendering of a plain (hex) string: surrounding quotes.  Hex strings
contain no characters that would need escaping. -/
def jstr (s : String) : String := "\"" ++ s ++ "\""

/-- JSON rendering of one `[key, value]` element, as `JSON.stringify`
produces it for a two-element array whose second entry may be `null`. -/
def serializePair : Pair → String
  | (k, v) => "[" ++ jstr k ++ "," ++ (match v with | none => "null" | some s => jstr s) ++ "]"

/-- Comma-separated concatenation, as `JSON.stringify` separates array
elements (no separator for the empty or singleton list). -/
def commaJoin : List String → String
  | [] => ""
  | [x] => x
  | x :: y :: xs => x ++ "," ++ commaJoin (y :: xs)

/-- `JSON.stringify` of a list of pairs: the full JSON array text. -/
def stringifyPairs (pairs : List Pair) : String :=
  "[" ++ commaJoin (pairs.map serializePair) ++ "]"

/-- `JSON.stringify(pairs).slice(1, -1)` (src/index.js:181,201): the body of
the JSON array with the outer brackets stripped, i.e. the comma-separated
pair serializations.  (All characters involved are single-byte ASCII, so the
JS byte slice is exactly the bracket-stripped body.) -/
def stringifySliced (pairs : List Pair) : String :=
  commaJoin (pairs.map serializePair)

/-- The pair-building loop of src/index.js:176-178 / 197-199:
`for (i = 0; i < keys.length; i++) pairs.push([keys[i], values[i]])`.
JS indexing past the end of `values` yields `undefined`, which serializes as
`null`; `List.getD _ _ none` models exactly that totality. -/
def buildPairs (keys : List String) (values : List (Option String)) : List Pair :=
  (List.range keys.length).map (fun i => (keys.getD i "", values.getD i none))

/-- `const page = 512` (src/index.js:161). -/
def page : Nat := 512

/-- `i.toString(16)` for a `Nat`, as a string of lowercase hex digits. -/
def toHexStr (i : Nat) : String := String.mk (Nat.toDigits 16 i)

/-- `i.toString(16).padStart(2, "0")` (src/index.js:213,218): two lowercase
hex digits for byte values. -/
def toHex2 (i : Nat) : String :=
  String.mk (List.replicate (2 - (toHexStr i).length) '0') ++ toHexStr i

/-- One RPC issued by the fetch phase. -/
inductive Rpc where
  | getFinalizedHead : Rpc
  | getKeysPaged (pfx : String) (startKey : Option String) : Rpc
  | queryStorageAt (keys : List String) : Rpc
deriving DecidableEq, Repr

/-- Is this RPC a key-enumeration (`state_getKeysPaged`) call? -/
def Rpc.isKeysPaged : Rpc → Bool
  | .getKeysPaged _ _ => true
  | _ => false

/-- The remote node, as the pure response functions the script consumes.
`getKeysPaged` receives exactly the arguments of the JS call
`[prefix, page, startKey, at]`; `queryStorageAt` receives `[keys, at]`. -/
structure Endpoint where
  getKeysPaged : String → Nat → Option String → String → List String
  queryStorageAt : List String → String → List (Option String)
  finalizedHead : String

/-- The mutable state of the fetch phase: the output stream contents after
the leading `[`, the shared separator flag (src/index.js:29), the progress
counters, the RPC log, the warning log, and (as the list `pairs`) the
key-value pairs that have been serialized into the stream. -/
structure St where
  written : String
  separator : Bool
  totalKeys : Nat
  chunksFetched : Nat
  rpc : List Rpc
  warnings : List String
  pairs : List Pair
deriving DecidableEq, Repr

/-- State at the start of the fetch phase. -/
def initSt : St :=
  { written := "", separator := false, totalKeys := 0, chunksFetched := 0,
    rpc := [], warnings := [], pairs := [] }

/-- The warning printed when the bulk value lookup returns a list of the
wrong length (src/index.js:172,193). -/
def mismatchWarning (vlen klen : Nat) : String :=
  "values length: " ++ toString vlen ++ " and key length: " ++ toString klen ++ " not equal"

/-- Body shared by src/index.js:169-181 and 190-201, executed for a
non-empty page `keys`: bulk value lookup, length-mismatch warning, pair
building, separator handling and the stream write of the serialized batch. -/
def processPage (ep : Endpoint) (at' : String) (keys : List String) (st : St) : St :=
  let values := ep.queryStorageAt keys at'
  let st := { st with rpc := st.rpc ++ [Rpc.queryStorageAt keys] }
  let st := if values.length ≠ keys.length then
      { st with warnings := st.warnings ++ [mismatchWarning values.length keys.length] }
    else st
  let pairs := buildPairs keys values
  let st := if st.separator then { st with written := st.written ++ "," }
    else { st with separator := true }
  { st with written := st.written ++ stringifySliced pairs, pairs := st.pairs ++ pairs }

/-- The `while (key_count == page)` loop of src/index.js:184-203, with
explicit fuel.  `keys` is the page returned by the previous enumeration
call; the loop re-enumerates with the last key of that page as cursor and
processes the new page if it is non-empty. -/
def fetchLoop (ep : Endpoint) (at' : String) (pfx : String) :
    Nat → List String → St → St
  | 0, _, st => st
  | fuel + 1, keys, st =>
    if keys.length = page then
      let st := { st with totalKeys := st.totalKeys + keys.length }
      let cursor := keys.getD (keys.length - 1) ""
      let keys' := ep.getKeysPaged pfx page (some cursor) at'
      let st := { st with rpc := st.rpc ++ [Rpc.getKeysPaged pfx (some cursor)] }
      let st := if keys'.length > 0 then processPage ep at' keys' st else st
      fetchLoop ep at' pfx fuel keys' st
    else st

/-- The base case of `fetchChunks` (src/index.js:163-206,
`levelsRemaining <= 0`): the initial enumeration call, the first-page
block (which also bumps `total_keys_count`), the pagination loop, and the
completed-chunk counter update. -/
def fetchChunkBase (ep : Endpoint) (at' : String) (pfx : String) (fuel : Nat) (st : St) : St :=
  let keys := ep.getKeysPaged pfx page none at'
  let st := { st with rpc := st.rpc ++ [Rpc.getKeysPaged pfx none] }
  let st := if keys.length > 0 then
      processPage ep at' keys { st with totalKeys := st.totalKeys + keys.length }
    else st
  let st := fetchLoop ep at' pfx fuel keys st
  { st with chunksFetched := st.chunksFetched + 1 }

/-- `fetchChunks` (src/index.js:162-220) in its sequential mode (the
`QUICK_MODE` branch only changes the scheduling of the 256 recursive calls
at `levelsRemaining == 1`; it is modeled by `drainTake` below).  The
recursive case appends each byte value `00`..`ff` to the prefix and
recurses at `levelsRemaining - 1`. -/
def fetchChunks (ep : Endpoint) (at' : String) (pfx : String) :
    (levelsRemaining : Nat) → (fuel : Nat) → St → St
  | 0, fuel, st => fetchChunkBase ep at' pfx fuel st
  | l + 1, fuel, st =>
      (List.range 256).foldl (fun s i => fetchChunks ep at' (pfx ++ toHex2 i) l fuel s) st

/-- The fetch phase of `main` (src/index.js:77-92): if `storage.json`
already exists it is reused untouched and no RPC is made; otherwise the
stream is opened, `[` written, the finalized head fetched, `fetchChunks`
run from the root prefix `0x`, and `]` written.  Returns the resulting file
contents and the final state. -/
def fetchPhase (ep : Endpoint) (chunksLevel fuel : Nat)
    (storageExists : Bool) (storageFile : String) : String × St :=
  if storageExists then (storageFile, initSt)
  else
    let at' := ep.finalizedHead
    let st := { initSt with rpc := [Rpc.getFinalizedHead] }
    let st := fetchChunks ep at' "0x" chunksLevel fuel st
    ("[" ++ st.written ++ "]", st)

/-- `Math.pow(256, chunksLevel)` (src/index.js:23). -/
def totalChunks (chunksLevel : Nat) : Nat := 256 ^ chunksLevel

/-- The 256 child prefixes generated by the recursive case of
`fetchChunks` (src/index.js:212-218), in generation order. -/
def childPrefixes (pfx : String) : List String :=
  (List.range 256).map (fun i => pfx ++ toHex2 i)

/-- The leaf-chunk prefixes reached from `pfx` at the given remaining
depth, in the order the sequential recursion visits them. -/
def leafChunks (pfx : String) : Nat → List String
  | 0 => [pfx]
  | d + 1 => ((childPrefixes pfx).map (fun c => leafChunks c d)).flatten

/-- All byte sequences of the given length, each byte `< 256`, in
lexicographic order: the abstract chunk index space. -/
def byteLists : Nat → List (List Nat)
  | 0 => [[]]
  | d + 1 => ((List.range 256).map (fun b => (byteLists d).map (fun bs => b :: bs))).flatten

/-- Hex encoding of a byte sequence: two lowercase digits per byte. -/
def hexEncode : List Nat → String
  | [] => ""
  | b :: bs => toHex2 b ++ hexEncode bs

/-- JS `s.startsWith(p)` on hex strings, as used by the splice filter
(src/index.js:127): `p` is a prefix of `s`. -/
def jsStartsWith (s p : String) : Bool := p.data.isPrefixOf s.data

/-- Strict lexicographic order on strings (character-wise). -/
def strLex (s t : String) : Prop := List.Lex (· < ·) s.data t.data

/-- Number of key-enumeration (`state_getKeysPaged`) calls recorded so far. -/
def countKeys (st : St) : Nat := st.rpc.countP Rpc.isKeysPaged

/-- A synthetic remote endpoint serving a fixed key list `K` (ordered by the
strict comparison `lt`) and the value function `vals`: an enumeration call
returns the first `page`-many keys of `K` strictly after the cursor, and the
bulk value lookup answers pointwise by `vals`. -/
def synthEp (lt : String → String → Bool) (K : List String)
    (vals : String → Option String) : Endpoint :=
  { getKeysPaged := fun _ p c _ =>
      (match c with
       | none => K
       | some cur => K.filter (fun k => lt cur k)).take p
    queryStorageAt := fun keys _ => keys.map vals
    finalizedHead := "0x00" }

/-- Byte-wise (character-list) strict order on hex strings, the order in
which a Substrate node enumerates storage keys. -/
def keyLt (a b : String) : Bool := decide (a.data < b.data)

/-- The writer invariant: the separator flag records whether anything has
been written, and the stream contents (after the leading `[`) are exactly
the comma-joined serializations of the pairs emitted so far. -/
def WriterInv (st : St) : Prop :=
  st.separator = !st.pairs.isEmpty ∧
  st.written = commaJoin (st.pairs.map serializePair)

/-- A synthetic chunk key set of exactly `512 = page` keys, sorted in
byte order: `"0000", "0001", ..., "01ff"`. -/
def exK : List String := (List.range 512).map (fun i => toHex2 (i / 256) ++ toHex2 (i % 256))

/-- A synthetic endpoint that answers the first enumeration call with 3 keys
but returns only 2 values from the bulk lookup — the spec's
mismatch-detection scenario. -/
def mismatchEp : Endpoint :=
  { getKeysPaged := fun _ _ c _ =>
      match c with
      | none => ["0xa1", "0xa2", "0xa3"]
      | some _ => []
    queryStorageAt := fun _ _ => [some "0x01", some "0x02"]
    finalizedHead := "0x00" }

/-- A synthetic endpoint whose namespace holds exactly one key, under the
chunk prefix `0x00`. -/
def oneKeyEp : Endpoint :=
  { getKeysPaged := fun pfx _ c _ =>
      match c with
      | none => if pfx = "0x00" then ["0x000001"] else []
      | some _ => []
    queryStorageAt := fun keys _ => keys.map (fun _ => some "0xv")
    finalizedHead := "0x00" }

/-- The non-empty batches the pagination loop emits, in page order: a pure
mirror of `fetchLoop`, used to relate sequential and concurrent
scheduling. -/
def loopBatches (ep : Endpoint) (at' pfx : String) : Nat → List String → List (List Pair)
  | 0, _ => []
  | fuel + 1, keys =>
    if keys.length = page then
      let cursor := keys.getD (keys.length - 1) ""
      let keys' := ep.getKeysPaged pfx page (some cursor) at'
      (if keys'.length > 0 then [buildPairs keys' (ep.queryStorageAt keys' at')] else [])
        ++ loopBatches ep at' pfx fuel keys'
    else []

/-- The non-empty batches one base-case chunk fetch emits, in page order. -/
def chunkBatches (ep : Endpoint) (at' pfx : String) (fuel : Nat) : List (List Pair) :=
  let keys := ep.getKeysPaged pfx page none at'
  (if keys.length > 0 then [buildPairs keys (ep.queryStorageAt keys at') ] else [])
    ++ loopBatches ep at' pfx fuel keys

/-- One cooperative schedule of the concurrent leaf fetches of `QUICK_MODE`
(src/index.js:210-215): `streams` holds each pending chunk's remaining
batches, and each schedule step lets one chunk progress by one batch.
`drainTake` collects the batches in the order they land in the shared
stream. -/
def drainTake {α : Type} (streams : List (List α)) : List Nat → List α
  | [] => []
  | i :: σ =>
    match streams.getD i [] with
    | [] => drainTake streams σ
    | b :: rest => b :: drainTake (streams.set i rest) σ

/-- The batches still unfinished after running a schedule. -/
def drainRest {α : Type} (streams : List (List α)) : List Nat → List (List α)
  | [] => streams
  | i :: σ =>
    match streams.getD i [] with
    | [] => drainRest streams σ
    | _ :: rest => drainRest (streams.set i rest) σ

/-- The per-child batch streams of a depth-1 subtree (the situation in which
`QUICK_MODE` issues all 256 child fetches concurrently). -/
def leafStreams (ep : Endpoint) (at' pfx : String) (fuel : Nat) : List (List (List Pair)) :=
  (List.range 256).map (fun i => chunkBatches ep at' (pfx ++ toHex2 i) fuel)

/-- The pairs a `QUICK_MODE` depth-1 subtree fetch writes under the
cooperative schedule `σ`. -/
def quickLeafPairs (ep : Endpoint) (at' pfx : String) (fuel : Nat) (σ : List Nat) : List Pair :=
  (drainTake (leafStreams ep at' pfx fuel) σ).flatten

/-! ### The splice step (src/index.js:116-153) -/

/-- JSON values, as far as the splice step needs them. -/
inductive J where
  | null : J
  | str (s : String) : J
  | num (n : Nat) : J
  | bool (b : Bool) : J
  | arr (elems : List J) : J
  | obj (fields : List (String × J)) : J

/-- JS object property lookup. -/
def getKey : List (String × J) → String → Option J
  | [], _ => none
  | (k', v') :: rest, k => if k' = k then some v' else getKey rest k

/-- JS object property assignment `o[k] = v`: updates the property in place
if present (keeping its position), else appends it. -/
def setKey : List (String × J) → String → J → List (String × J)
  | [], k, v => [(k, v)]
  | (k', v') :: rest, k, v => if k' = k then (k, v) :: rest else (k', v') :: setKey rest k v

/-- JS `delete o[k]`. -/
def delKey : List (String × J) → String → List (String × J)
  | [], _ => []
  | (k', v') :: rest, k => if k' = k then delKey rest k else (k', v') :: delKey rest k

/-- Modify the value of a present property in place. -/
def modifyKey : List (String × J) → String → (J → J) → List (String × J)
  | [], _, _ => []
  | (k', v') :: rest, k, f => if k' = k then (k', f v') :: rest else (k', v') :: modifyKey rest k f

/-- Property read on a JSON value (`none` when absent or not an object). -/
def getField (j : J) (k : String) : Option J :=
  match j with
  | .obj fs => getKey fs k
  | _ => none

/-- Property write on a JSON value (identity on non-objects; the splice step
only runs on parsed spec documents, which are objects). -/
def setField (j : J) (k : String) (v : J) : J :=
  match j with
  | .obj fs => .obj (setKey fs k v)
  | _ => j

/-- Property deletion on a JSON value. -/
def delField (j : J) (k : String) : J :=
  match j with
  | .obj fs => .obj (delKey fs k)
  | _ => j

/-- In-place modification of a present property of a JSON value. -/
def modifyField (j : J) (k : String) (f : J → J) : J :=
  match j with
  | .obj fs => .obj (modifyKey fs k f)
  | _ => j

/-- Read along a path of property names. -/
def getPath : J → List String → Option J
  | j, [] => some j
  | j, k :: ks =>
    match getField j k with
    | some v => getPath v ks
    | none => none

/-- Modify the value at the end of a path of property names, when the whole
path is present. -/
def modifyPath : J → List String → (J → J) → J
  | j, [], f => f j
  | j, k :: ks, f => modifyField j k (fun v => modifyPath v ks f)

/-- `System.LastRuntimeUpgrade`, deleted at src/index.js:131. -/
def lastRuntimeUpgradeKey : String :=
  "0x26aa394eea5630e07c48ae0c9558cef7f9cce9c888469bb1a0dceaa129672ef8"

/-- `:code`, overwritten at src/index.js:134. -/
def codeKey : String := "0x3a636f6465"

/-- `Staking.ForceEra`, pinned at src/index.js:137. -/
def forceEraKey : String :=
  "0x5f3e4907f716ac89b6347d15ececedcaf7dad0317324aecae8744b87fc95f2f3"

/-- `Sudo.Key` (src/index.js:141). -/
def sudoKey : String :=
  "0x5c0d1176a568c1f92944340dbfed9e9c530ebca703c85910e7164cb7d1c9e47b"

/-- `TechnicalMembership.Members` (src/index.js:143). -/
def technicalMembershipKey : String :=
  "0x3a2d6c9353500637d8f8e3e0fa0bb1c5ba7fb8745735dc3be2a2c61a72c39e78"

/-- `TechnicalCommittee.Members` (src/index.js:145). -/
def technicalCommitteeKey : String :=
  "0xed25f63942de25ac5253ba64b5eb64d1ba7fb8745735dc3be2a2c61a72c39e78"

/-- `PhragmenElection.Members` (src/index.js:148). -/
def phragmenElectionKey : String :=
  "0xe2e62dd81c48a88f73b6f6463555fd8eba7fb8745735dc3be2a2c61a72c39e78"

/-- `Council.Members` (src/index.js:150). -/
def councilKey : String :=
  "0xaebd463ed9925c488c112434d61debc0ba7fb8745735dc3be2a2c61a72c39e78"

/-- The `//Alice` account id used by the fixed governance overwrites. -/
def aliceAccount : String :=
  "0xd43593c715fdd31c61141abd04a99fd6822c8558854ccde39a5684e7a56da27d"

/-- A one-element membership vector holding `//Alice`. -/
def aliceMember : String :=
  "0x04d43593c715fdd31c61141abd04a99fd6822c8558854ccde39a5684e7a56da27d"

/-- The `PhragmenElection` entry for `//Alice` with stake. -/
def alicePhragmen : String :=
  "0x04d43593c715fdd31c61141abd04a99fd6822c8558854ccde39a5684e7a56da27d0010a5d4e800000000000000000000000010a5d4e80000000000000000000000"

/-- Read a string-valued scalar field of a parsed spec document. -/
def strOfField (j : J) (k : String) : String :=
  match getField j k with
  | some (.str s) => s
  | _ => ""

/-- The path of the storage map inside a spec document. -/
def topPath : List String := ["genesis", "raw", "top"]

/-- One snapshot-pair insertion, `forkedSpec.genesis.raw.top[key] = value`
(src/index.js:128). -/
def insTop (d : J) (kv : String × J) : J :=
  modifyPath d topPath (fun top => setField top kv.1 kv.2)

/-- The snapshot filter-and-insert of src/index.js:126-128: every snapshot
pair whose key starts with one of the allow-listed prefixes is written into
`genesis.raw.top` of the target document. -/
def spliceInsert (storage : List (String × J)) (prefixes : List String) (doc : J) : J :=
  (storage.filter (fun i => prefixes.any (fun pfx => jsStartsWith i.1 pfx))).foldl insTop doc

/-- Observer: the value stored in `genesis.raw.top` under a key. -/
def topGet (doc : J) (k : String) : Option J :=
  match getPath doc topPath with
  | some top => getField top k
  | none => none

/-- The document has a `genesis.raw.top` object (every parsed raw spec
document does; JS would throw on the path access otherwise). -/
def HasTop (doc : J) : Prop := ∃ ts, getPath doc topPath = some (J.obj ts)

/-- The spec's splice example snapshot. -/
def exStorage : List (String × J) := [("0xAA01", J.str "0x01"), ("0xBB01", J.str "0x02")]

/-- The spec's splice example allow-list. -/
def exAllow : List String := ["0xAA"]

/-- A target document with an empty `genesis.raw.top`. -/
def exDoc : J := J.obj [("genesis", J.obj [("raw", J.obj [("top", J.obj [])])])]

/-- The expected splice result: `genesis.raw.top` holds exactly
`0xAA01 -> 0x01`. -/
def exResult : J :=
  J.obj [("genesis", J.obj [("raw", J.obj [("top", J.obj [("0xAA01", J.str "0x01")])])])]

/-- A small synthetic dev spec document, rich enough to watch the frame. -/
def exForked : J :=
  J.obj [("name", J.str "Development"), ("id", J.str "dev"),
    ("protocolId", J.str "dev"), ("bootNodes", J.arr []),
    ("genesis", J.obj [("raw", J.obj [("top", J.obj []), ("childrenDefault", J.obj [])]),
      ("session", J.null)])]

/-- A small synthetic original (production) spec document. -/
def exOriginal : J :=
  J.obj [("name", J.str "Darwinia"), ("id", J.str "darwinia"),
    ("protocolId", J.str "dar"), ("genesis", J.obj [("raw", J.obj [("top", J.obj [])])])]

/-- The whole splice step of src/index.js:121-151: chain name/id/protocolId,
the allow-listed snapshot insert, the `System.LastRuntimeUpgrade` deletion,
the runtime-code overwrite, the `Staking.ForceEra` pin, and (when `alice`
is set) the fixed governance-key overwrites. -/
def spliceStep (forkedSpec originalSpec : J) (storage : List (String × J))
    (prefixes : List String) (runtimeHex : String) (alice : String) : J :=
  let fs := setField forkedSpec "name" (J.str (strOfField originalSpec "name" ++ "-fork"))
  let fs := setField fs "id" (J.str (strOfField originalSpec "id" ++ "-fork"))
  let fs := setField fs "protocolId" ((getField originalSpec "protocolId").getD J.null)
  let fs := spliceInsert storage prefixes fs
  let fs := modifyPath fs topPath (fun top => delField top lastRuntimeUpgradeKey)
  let fs := modifyPath fs topPath (fun top => setField top codeKey (J.str ("0x" ++ runtimeHex)))
  let fs := modifyPath fs topPath (fun top => setField top forceEraKey (J.str "0x02"))
  if alice ≠ "" then
    let fs := modifyPath fs topPath (fun top => setField top sudoKey (J.str aliceAccount))
    let fs := modifyPath fs topPath
      (fun top => setField top technicalMembershipKey (J.str aliceMember))
    let fs := modifyPath fs topPath
      (fun top => setField top technicalCommitteeKey (J.str aliceMember))
    let fs := modifyPath fs topPath
      (fun top => setField top phragmenElectionKey (J.str alicePhragmen))
    let fs := modifyPath fs topPath (fun top => setField top councilKey (J.str aliceMember))
    fs
  else fs

/-! ## Generic helpers -/

theorem foldl_preserves {σ α : Type} (P : σ → Prop) (f : σ → α → σ)
    (hf : ∀ s a, P s → P (f s a)) :
    ∀ (l : List α) (s : σ), P s → P (l.foldl f s)
  | [], _, hs => hs
  | a :: l, s, hs => foldl_preserves P f hf l (f s a) (hf s a hs)

theorem strAppend_assoc (a b c : String) : a ++ b ++ c = a ++ (b ++ c) := by
  apply String.ext
  simp [String.data_append, List.append_assoc]

theorem strEmpty_append (s : String) : "" ++ s = s := by
  apply String.ext
  simp [String.data_append]

theorem commaJoin_append : ∀ (A B : List String), A ≠ [] → B ≠ [] →
    commaJoin (A ++ B) = commaJoin A ++ "," ++ commaJoin B
  | [], _, hA, _ => absurd rfl hA
  | [_], [], _, hB => absurd rfl hB
  | [a], b :: bs, _, _ => by simp [commaJoin]
  | a :: a2 :: A2, B, _, hB => by
    have ih := commaJoin_append (a2 :: A2) B (by simp) hB
    show a ++ "," ++ commaJoin ((a2 :: A2) ++ B) = a ++ "," ++ commaJoin (a2 :: A2) ++ "," ++ commaJoin B
    rw [ih]
    simp [strAppend_assoc]

/-- Normal form of `processPage`: its net effect on each state field. -/
theorem processPage_eq (ep : Endpoint) (at' : String) (keys : List String) (st : St) :
    processPage ep at' keys st =
      { st with
        rpc := st.rpc ++ [Rpc.queryStorageAt keys]
        warnings := if (ep.queryStorageAt keys at').length ≠ keys.length
          then st.warnings ++
            [mismatchWarning (ep.queryStorageAt keys at').length keys.length]
          else st.warnings
        separator := true
        written := (if st.separator then st.written ++ "," else st.written) ++
          stringifySliced (buildPairs keys (ep.queryStorageAt keys at'))
        pairs := st.pairs ++ buildPairs keys (ep.queryStorageAt keys at') } := by
  simp only [processPage]
  split_ifs with h1 h2 <;> simp_all

theorem length_buildPairs (keys : List String) (values : List (Option String)) :
    (buildPairs keys values).length = keys.length := by
  simp [buildPairs]

theorem buildPairs_ne_nil (keys : List String) (values : List (Option String))
    (hk : keys ≠ []) : buildPairs keys values ≠ [] := by
  intro hnil
  apply hk
  have h := congrArg List.length hnil
  rw [length_buildPairs] at h
  exact List.eq_nil_of_length_eq_zero h

theorem writerInv_initSt : WriterInv initSt := by
  constructor <;> rfl

theorem processPage_writerInv (ep : Endpoint) (at' : String) (keys : List String)
    (st : St) (hk : keys ≠ []) (h : WriterInv st) :
    WriterInv (processPage ep at' keys st) := by
  obtain ⟨hsep, hw⟩ := h
  have hbp := buildPairs_ne_nil keys (ep.queryStorageAt keys at') hk
  rw [processPage_eq]
  constructor
  · simp [List.isEmpty_iff, hbp]
  · show (if st.separator then st.written ++ "," else st.written) ++ _ = _
    by_cases hs : st.separator = true
    · have hpne : st.pairs ≠ [] := by
        rw [hs] at hsep
        simpa [List.isEmpty_iff] using hsep.symm
      simp only [hs, if_pos]
      rw [hw, List.map_append,
        commaJoin_append (st.pairs.map serializePair) ((buildPairs keys (ep.queryStorageAt keys at')).map serializePair)
          (by simpa using hpne) (by simpa using hbp)]
      rfl
    · have hpnil : st.pairs = [] := by
        rw [Bool.not_eq_true] at hs
        rw [hs] at hsep
        simpa [List.isEmpty_iff] using hsep.symm
      simp only [hs, if_neg, Bool.false_eq_true, not_false_iff]
      rw [hw, hpnil]
      simp only [List.map_nil, commaJoin, List.nil_append, strEmpty_append]
      rfl

theorem processPage_countKeys (ep : Endpoint) (at' : String) (keys : List String) (st : St) :
    countKeys (processPage ep at' keys st) = countKeys st := by
  rw [processPage_eq]
  simp [countKeys, List.countP_append, List.countP_cons, Rpc.isKeysPaged]

theorem processPage_chunksFetched (ep : Endpoint) (at' : String) (keys : List String) (st : St) :
    (processPage ep at' keys st).chunksFetched = st.chunksFetched := by
  rw [processPage_eq]

theorem processPage_pairs (ep : Endpoint) (at' : String) (keys : List String) (st : St) :
    (processPage ep at' keys st).pairs
      = st.pairs ++ buildPairs keys (ep.queryStorageAt keys at') := by
  rw [processPage_eq]

theorem processPage_warnings (ep : Endpoint) (at' : String) (keys : List String) (st : St) :
    (processPage ep at' keys st).warnings
      = if (ep.queryStorageAt keys at').length ≠ keys.length
        then st.warnings ++ [mismatchWarning (ep.queryStorageAt keys at').length keys.length]
        else st.warnings := by
  rw [processPage_eq]

/-! ## The writer invariant through the whole fetch recursion -/

theorem fetchLoop_writerInv (ep : Endpoint) (at' pfx : String) :
    ∀ (fuel : Nat) (keys : List String) (st : St),
      WriterInv st → WriterInv (fetchLoop ep at' pfx fuel keys st)
  | 0, _, _, h => h
  | fuel + 1, keys, st, h => by
    simp only [fetchLoop]
    split
    · apply fetchLoop_writerInv ep at' pfx fuel
      split
      · next hpos =>
          exact processPage_writerInv _ _ _ _ (List.length_pos.mp hpos) h
      · exact h
    · exact h

theorem fetchChunkBase_writerInv (ep : Endpoint) (at' pfx : String) (fuel : Nat)
    (st : St) (h : WriterInv st) : WriterInv (fetchChunkBase ep at' pfx fuel st) := by
  simp only [fetchChunkBase]
  have hmid : WriterInv (if (ep.getKeysPaged pfx page none at').length > 0 then
      processPage ep at' (ep.getKeysPaged pfx page none at')
        { st with
          rpc := st.rpc ++ [Rpc.getKeysPaged pfx none]
          totalKeys := st.totalKeys + (ep.getKeysPaged pfx page none at').length }
    else { st with rpc := st.rpc ++ [Rpc.getKeysPaged pfx none] }) := by
    split
    · next hpos => exact processPage_writerInv _ _ _ _ (List.length_pos.mp hpos) h
    · exact h
  have := fetchLoop_writerInv ep at' pfx fuel (ep.getKeysPaged pfx page none at') _ hmid
  exact this

theorem fetchChunks_writerInv (ep : Endpoint) (at' : String) :
    ∀ (lvl : Nat) (pfx : String) (fuel : Nat) (st : St),
      WriterInv st → WriterInv (fetchChunks ep at' pfx lvl fuel st)
  | 0, pfx, fuel, st, h => fetchChunkBase_writerInv ep at' pfx fuel st h
  | l + 1, pfx, fuel, st, h => by
    simp only [fetchChunks]
    exact foldl_preserves WriterInv _
      (fun s i hs => fetchChunks_writerInv ep at' l (pfx ++ toHex2 i) fuel s hs)
      (List.range 256) st h

/-! ## Key-enumeration call counting over the synthetic endpoint -/

theorem sorted_filter_getD_drop (lt : String → String → Bool) (R : List String)
    (hs : R.Pairwise (fun a b => lt a b = true))
    (hasymm : ∀ a b : String, lt a b = true → lt b a = false)
    (n : Nat) (hn : 0 < n) (hlen : n ≤ R.length) :
    R.filter (fun k => lt (R.getD (n - 1) "") k) = R.drop n := by
  have hidx : n - 1 < R.length := lt_of_lt_of_le (Nat.sub_lt hn Nat.one_pos) hlen
  have hgetD : R.getD (n - 1) "" = R[n - 1] := List.getD_eq_getElem R "" hidx
  have hpw := List.pairwise_iff_getElem.mp hs
  have hirrefl : ∀ a : String, lt a a = false := by
    intro a
    by_cases h : lt a a = true
    · have := hasymm a a h
      rw [h] at this
      exact absurd this (by simp)
    · simp only [Bool.not_eq_true] at h
      exact h
  have h1 : (R.take n).filter (fun k => lt (R.getD (n - 1) "") k) = [] := by
    apply List.filter_eq_nil_iff.mpr
    intro x hx
    obtain ⟨i, hi, hieq⟩ := List.mem_iff_getElem.mp hx
    have hilen : i < n := by
      have := hi
      rw [List.length_take] at this
      exact lt_of_lt_of_le this (Nat.min_le_left n R.length)
    have hiR : i < R.length := by
      have := hi
      rw [List.length_take] at this
      exact lt_of_lt_of_le this (Nat.min_le_right n R.length)
    have hxi : R[i] = x := by
      rw [← hieq]
      simp [List.getElem_take]
    rcases Nat.lt_or_ge i (n - 1) with hlt | hge
    · have hrel := hpw i (n - 1) hiR hidx hlt
      have := hasymm _ _ hrel
      rw [hgetD, ← hxi]
      simp [this]
    · have heq : i = n - 1 := le_antisymm (Nat.le_sub_one_of_lt hilen) hge
      subst heq
      rw [hgetD, ← hxi]
      simp [hirrefl]
  have h2 : (R.drop n).filter (fun k => lt (R.getD (n - 1) "") k) = R.drop n := by
    apply List.filter_eq_self.mpr
    intro x hx
    obtain ⟨j, hj, hjeq⟩ := List.mem_iff_getElem.mp hx
    have hjR : n + j < R.length := by
      have := hj
      rw [List.length_drop] at this
      omega
    have hxj : R[n + j] = x := by
      rw [← hjeq]
      simp [List.getElem_drop]
    have hrel := hpw (n - 1) (n + j) hidx hjR (by omega)
    rw [hgetD, ← hxj]
    exact hrel
  calc R.filter (fun k => lt (R.getD (n - 1) "") k)
      = (R.take n ++ R.drop n).filter (fun k => lt (R.getD (n - 1) "") k) := by
        rw [List.take_append_drop]
    _ = (R.take n).filter (fun k => lt (R.getD (n - 1) "") k)
          ++ (R.drop n).filter (fun k => lt (R.getD (n - 1) "") k) := by
        rw [List.filter_append]
    _ = R.drop n := by rw [h1, h2, List.nil_append]

theorem filter_lt_filter_lt (lt : String → String → Bool)
    (htrans : ∀ a b c : String, lt a b = true → lt b c = true → lt a c = true)
    (K : List String) (c c' : String) (hcc : lt c c' = true) :
    (K.filter (fun k => lt c k)).filter (fun k => lt c' k)
      = K.filter (fun k => lt c' k) := by
  rw [List.filter_filter]
  apply List.filter_congr
  intro a _
  by_cases h : lt c' a = true
  · simp [h, htrans c c' a hcc h]
  · simp only [Bool.not_eq_true] at h
    simp [h]

theorem countKeys_ifProcess (ep : Endpoint) (at' : String) (keys' : List String) (st' : St) :
    countKeys (if keys'.length > 0 then processPage ep at' keys' st' else st')
      = countKeys st' := by
  split
  · exact processPage_countKeys ep at' keys' st'
  · rfl

/-- Number of key-enumeration calls issued by the pagination loop over the
synthetic endpoint: starting from the page `R.take page` of the not yet
consumed (sorted) remainder `R`, the loop issues exactly `R.length / page`
further calls. -/
theorem fetchLoop_countKeys (lt : String → String → Bool) (K : List String)
    (vals : String → Option String) (at' pfx : String)
    (hs : K.Pairwise (fun a b => lt a b = true))
    (htrans : ∀ a b c : String, lt a b = true → lt b c = true → lt a c = true)
    (hasymm : ∀ a b : String, lt a b = true → lt b a = false) :
    ∀ (fuel : Nat) (R : List String) (st : St),
      (R = K ∨ ∃ c, R = K.filter (fun k => lt c k)) →
      R.length / page ≤ fuel →
      countKeys (fetchLoop (synthEp lt K vals) at' pfx fuel (R.take page) st)
        = countKeys st + R.length / page := by
  intro fuel
  induction fuel with
  | zero =>
    intro R st _ hf
    have h0 : R.length / page = 0 := Nat.le_zero.mp hf
    simp [fetchLoop, h0]
  | succ n ih =>
    intro R st hR hf
    by_cases hbig : page ≤ R.length
    · have hRsorted : R.Pairwise (fun a b => lt a b = true) := by
        rcases hR with rfl | ⟨c, rfl⟩
        · exact hs
        · exact hs.filter _
      have hlen : (R.take page).length = page := by
        rw [List.length_take]
        exact Nat.min_eq_left hbig
      have hpagepos : 0 < page := by decide
      have hidx : page - 1 < R.length := by omega
      have hcursor : (R.take page).getD ((R.take page).length - 1) "" = R.getD (page - 1) "" := by
        rw [hlen, List.getD_eq_getElem _ _ (by rw [List.length_take]; omega),
          List.getD_eq_getElem _ _ hidx]
        simp [List.getElem_take]
      have hfilter : K.filter (fun k => lt (R.getD (page - 1) "") k) = R.drop page := by
        rcases hR with rfl | ⟨c, hRc⟩
        · exact sorted_filter_getD_drop lt R hs hasymm page hpagepos hbig
        · have hcmem : R.getD (page - 1) "" ∈ R := by
            rw [List.getD_eq_getElem _ _ hidx]
            exact List.getElem_mem hidx
          have hcK : lt c (R.getD (page - 1) "") = true := by
            have hsub : ∀ x, x ∈ R → x ∈ K.filter (fun k => lt c k) := fun x hx => hRc ▸ hx
            exact (List.mem_filter.mp (hsub _ hcmem)).2
          calc K.filter (fun k => lt (R.getD (page - 1) "") k)
              = (K.filter (fun k => lt c k)).filter (fun k => lt (R.getD (page - 1) "") k) :=
                (filter_lt_filter_lt lt htrans K c _ hcK).symm
            _ = R.filter (fun k => lt (R.getD (page - 1) "") k) := by rw [← hRc]
            _ = R.drop page := sorted_filter_getD_drop lt R hRsorted hasymm page hpagepos hbig
      have hdiv : R.length / page = (R.length - page) / page + 1 :=
        Nat.div_eq_sub_div hpagepos hbig
      simp only [fetchLoop]
      rw [if_pos hlen, hcursor]
      show countKeys (fetchLoop (synthEp lt K vals) at' pfx n
          ((K.filter (fun k => lt (R.getD (page - 1) "") k)).take page) _) = _
      rw [hfilter]
      refine Eq.trans (ih (R.drop page) _
        (Or.inr ⟨R.getD (page - 1) "", hfilter.symm⟩)
        (by rw [List.length_drop]; omega)) ?_
      rw [countKeys_ifProcess]
      simp only [countKeys, List.countP_append, List.countP_cons, List.countP_nil,
        Rpc.isKeysPaged, List.length_drop, if_true]
      rw [hdiv]
      omega
    · have hlenne : (R.take page).length ≠ page := by
        rw [List.length_take]
        omega
      simp only [fetchLoop]
      rw [if_neg hlenne, Nat.div_eq_of_lt (by omega)]
      omega

theorem countKeys_chunksSet (x : St) (v : Nat) :
    countKeys { x with chunksFetched := v } = countKeys x := rfl

/-- Total number of key-enumeration calls of one base-case chunk fetch over
the synthetic endpoint serving the sorted key list `K`. -/
theorem fetchChunkBase_countKeys (lt : String → String → Bool) (K : List String)
    (vals : String → Option String) (at' pfx : String) (st : St) (fuel : Nat)
    (hs : K.Pairwise (fun a b => lt a b = true))
    (htrans : ∀ a b c : String, lt a b = true → lt b c = true → lt a c = true)
    (hasymm : ∀ a b : String, lt a b = true → lt b a = false)
    (hf : K.length / page ≤ fuel) :
    countKeys (fetchChunkBase (synthEp lt K vals) at' pfx fuel st)
      = countKeys st + (K.length / page + 1) := by
  simp only [fetchChunkBase, synthEp]
  rw [countKeys_chunksSet]
  refine Eq.trans (fetchLoop_countKeys lt K vals at' pfx hs htrans hasymm fuel K _
    (Or.inl rfl) hf) ?_
  split
  · rw [processPage_countKeys]
    simp only [countKeys, List.countP_append, List.countP_cons, List.countP_nil,
      Rpc.isKeysPaged, if_true]
    omega
  · simp only [countKeys, List.countP_append, List.countP_cons, List.countP_nil,
      Rpc.isKeysPaged, if_true]
    omega

theorem keyLt_trans : ∀ a b c : String, keyLt a b = true → keyLt b c = true → keyLt a c = true := by
  intro a b c h1 h2
  simp only [keyLt, decide_eq_true_eq] at h1 h2 ⊢
  exact lt_trans h1 h2

theorem keyLt_asymm : ∀ a b : String, keyLt a b = true → keyLt b a = false := by
  intro a b h
  simp only [keyLt, decide_eq_true_eq] at h
  simp only [keyLt, decide_eq_false_iff_not]
  exact lt_asymm h

theorem fetchLoop_chunksFetched (ep : Endpoint) (at' pfx : String) :
    ∀ (fuel : Nat) (keys : List String) (st : St),
      (fetchLoop ep at' pfx fuel keys st).chunksFetched = st.chunksFetched
  | 0, _, _ => rfl
  | fuel + 1, keys, st => by
    simp only [fetchLoop]
    split
    · rw [fetchLoop_chunksFetched ep at' pfx fuel]
      split
      · rw [processPage_chunksFetched]
      · rfl
    · rfl

theorem fetchChunkBase_chunksFetched (ep : Endpoint) (at' pfx : String) (fuel : Nat) (st : St) :
    (fetchChunkBase ep at' pfx fuel st).chunksFetched = st.chunksFetched + 1 := by
  simp only [fetchChunkBase]
  show (fetchLoop ep at' pfx fuel _ _).chunksFetched + 1 = st.chunksFetched + 1
  rw [fetchLoop_chunksFetched]
  split
  · rw [processPage_chunksFetched]
  · rfl

/-! ## Claim C1: pagination call count -/

set_option maxRecDepth 10000 in
/-- C1 (counterexample): for a chunk of exactly `N = 512 = pageSize` keys —
the synthetic remote enumeration returns exactly `pageSize` keys on the
first call and fewer (zero) on the final call — the base-case loop issues
2 key-enumeration calls, whereas the claim's `⌈N / pageSize⌉` is 1. -/
theorem c1_calls_counterexample :
    countKeys (fetchChunkBase (synthEp keyLt exK (fun _ => none)) "0x00" "0x" 1 initSt) = 2
      ∧ exK.length = 512
      ∧ (exK.length + (page - 1)) / page = 1 := by
  refine ⟨by decide, by decide, by decide⟩

/-- C1 (amended): for every chunk whose key set is the strictly sorted list
`K` — so the remote enumeration returns exactly `pageSize` keys on every
call except the final one, which returns fewer — the base-case loop of the
Fetcher terminates (any fuel of at least `K.length / page` suffices, the
result no longer depending on the fuel) and issues exactly
`K.length / page + 1` key-enumeration calls.  This equals
`⌈K.length / pageSize⌉` exactly when `pageSize` does not divide `K.length`;
when it does divide (including the empty chunk) the loop issues one extra
trailing call that returns a short (empty) page. -/
theorem c1_calls_amended (lt : String → String → Bool) (K : List String)
    (vals : String → Option String) (at' pfx : String) (st : St) (fuel : Nat)
    (hs : K.Pairwise (fun a b => lt a b = true))
    (htrans : ∀ a b c : String, lt a b = true → lt b c = true → lt a c = true)
    (hasymm : ∀ a b : String, lt a b = true → lt b a = false)
    (hf : K.length / page ≤ fuel) :
    countKeys (fetchChunkBase (synthEp lt K vals) at' pfx fuel st)
      = countKeys st + (K.length / page + 1) :=
  fetchChunkBase_countKeys lt K vals at' pfx st fuel hs htrans hasymm hf

/-- C1 witness: a two-key chunk costs exactly one enumeration call. -/
theorem c1_calls_amended_witness :
    countKeys (fetchChunkBase (synthEp keyLt ["0xaa", "0xbb"] (fun _ => none))
      "0x00" "0x" 0 initSt) = 1 := by
  have h := c1_calls_amended keyLt ["0xaa", "0xbb"] (fun _ => none) "0x00" "0x" initSt 0
    (by decide) keyLt_trans keyLt_asymm (by decide)
  rw [h]
  decide

/-! ## Claim C3: the stream is a valid JSON array -/

/-- C3: a completed run of the fetch phase writes a single leading `[`
before any data, a single trailing `]` after the last batch, and a comma
before every non-empty batch except the first (tracked by the shared
separator flag), so the resulting file is exactly `JSON.stringify` of the
emitted pair list — a syntactically valid JSON array; in particular an
empty namespace yields `[]`. -/
theorem c3_stream_valid_json :
    (∀ (ep : Endpoint) (lvl fuel : Nat) (file : String),
      (fetchPhase ep lvl fuel false file).1
        = stringifyPairs (fetchPhase ep lvl fuel false file).2.pairs)
    ∧ stringifyPairs [] = "[]" := by
  constructor
  · intro ep lvl fuel file
    have hinv := fetchChunks_writerInv ep ep.finalizedHead lvl "0x" fuel
      { initSt with rpc := [Rpc.getFinalizedHead] } ⟨rfl, rfl⟩
    simp only [fetchPhase]
    rw [if_neg (by simp)]
    rw [hinv.2]
    rfl
  · rfl

/-! ## Claim C5: length mismatches are non-fatal -/

/-- C5: when the bulk value lookup answers a page with a list whose length
differs from the key list's, the run logs the anomaly (the warning is
appended to the log) and continues: the batch is still processed in full
(one pair per key is appended to the stream state) and the chunk fetch
still runs to completion, bumping the completed-chunk counter — no failure
path exists in the page processing. -/
theorem c5_mismatch_nonfatal (ep : Endpoint) (at' : String) (keys : List String) (st : St)
    (hmis : (ep.queryStorageAt keys at').length ≠ keys.length) :
    (processPage ep at' keys st).warnings
        = st.warnings ++ [mismatchWarning (ep.queryStorageAt keys at').length keys.length]
      ∧ (processPage ep at' keys st).pairs
        = st.pairs ++ buildPairs keys (ep.queryStorageAt keys at')
      ∧ (buildPairs keys (ep.queryStorageAt keys at')).length = keys.length
      ∧ ∀ (pfx : String) (fuel : Nat) (st' : St),
          (fetchChunkBase ep at' pfx fuel st').chunksFetched = st'.chunksFetched + 1 := by
  refine ⟨?_, processPage_pairs ep at' keys st, length_buildPairs _ _,
    fun pfx fuel st' => fetchChunkBase_chunksFetched ep at' pfx fuel st'⟩
  rw [processPage_warnings, if_pos hmis]

/-- C5 witness: the spec's scenario — 3 keys, 2 values — is logged and the
page still contributes 3 pairs. -/
theorem c5_mismatch_nonfatal_witness :
    (processPage mismatchEp "0x00" ["0xa1", "0xa2", "0xa3"] initSt).warnings
        = [mismatchWarning 2 3]
      ∧ (processPage mismatchEp "0x00" ["0xa1", "0xa2", "0xa3"] initSt).pairs.length = 3 := by
  have h := c5_mismatch_nonfatal mismatchEp "0x00" ["0xa1", "0xa2", "0xa3"] initSt (by decide)
  constructor
  · rw [h.1]
    decide
  · rw [h.2.1]
    decide

/-! ## Claim C6: null values are preserved -/

/-- C6: a pair whose value is null is written to the snapshot as the
two-element array `["<keyHex>",null]`: the pair-building loop emits one
pair per key (never omitting any), the null value stays null, and the
serializer renders it as the literal `null` — concretely,
`("0xCC01", null)` serializes to `["0xCC01",null]`. -/
theorem c6_null_preserved (keys : List String) (values : List (Option String)) (i : Nat)
    (hi : i < keys.length) (hnull : values.getD i none = none) :
    (buildPairs keys values).length = keys.length
      ∧ (buildPairs keys values)[i]? = some (keys.getD i "", none)
      ∧ serializePair ("0xCC01", (none : Option String)) = "[\"0xCC01\",null]" := by
  refine ⟨length_buildPairs _ _, ?_, by decide⟩
  rw [List.getD_eq_getElem?_getD] at hnull
  simp [buildPairs, List.getElem?_map, List.getElem?_range hi, hnull]

/-- C6 witness. -/
theorem c6_null_preserved_witness :
    (buildPairs ["0xCC01"] [(none : Option String)])[0]?
      = some ("0xCC01", (none : Option String)) :=
  (c6_null_preserved ["0xCC01"] [none] 0 (by decide) (by decide)).2.1

/-! ## Claim C4: concurrent leaf mode emits the same pair set -/

theorem fetchLoop_pairs (ep : Endpoint) (at' pfx : String) :
    ∀ (fuel : Nat) (keys : List String) (st : St),
      (fetchLoop ep at' pfx fuel keys st).pairs
        = st.pairs ++ (loopBatches ep at' pfx fuel keys).flatten
  | 0, _, st => by simp [fetchLoop, loopBatches]
  | fuel + 1, keys, st => by
    simp only [fetchLoop, loopBatches]
    by_cases hC : keys.length = page
    · rw [if_pos hC, if_pos hC, fetchLoop_pairs ep at' pfx fuel]
      by_cases hpos :
          (ep.getKeysPaged pfx page (some (keys.getD (keys.length - 1) "")) at').length > 0
      · rw [if_pos hpos, if_pos hpos, processPage_pairs]
        simp [List.append_assoc]
      · rw [if_neg hpos, if_neg hpos]
        simp
    · rw [if_neg hC, if_neg hC]
      simp

theorem fetchChunkBase_pairs (ep : Endpoint) (at' pfx : String) (fuel : Nat) (st : St) :
    (fetchChunkBase ep at' pfx fuel st).pairs
      = st.pairs ++ (chunkBatches ep at' pfx fuel).flatten := by
  simp only [fetchChunkBase, chunkBatches]
  rw [fetchLoop_pairs]
  by_cases hpos : (ep.getKeysPaged pfx page none at').length > 0
  · rw [if_pos hpos, if_pos hpos, processPage_pairs]
    simp [List.append_assoc]
  · rw [if_neg hpos, if_neg hpos]
    simp

theorem foldl_chunkBase_pairs (ep : Endpoint) (at' pfx : String) (fuel : Nat) :
    ∀ (l : List Nat) (st : St),
      (l.foldl (fun s i => fetchChunks ep at' (pfx ++ toHex2 i) 0 fuel s) st).pairs
        = st.pairs
          ++ (l.map (fun i => (chunkBatches ep at' (pfx ++ toHex2 i) fuel).flatten)).flatten
  | [], st => by simp
  | a :: l, st => by
    simp only [List.foldl_cons, List.map_cons, List.flatten_cons]
    rw [foldl_chunkBase_pairs ep at' pfx fuel l]
    have hbase : fetchChunks ep at' (pfx ++ toHex2 a) 0 fuel st
        = fetchChunkBase ep at' (pfx ++ toHex2 a) fuel st := rfl
    rw [hbase, fetchChunkBase_pairs]
    simp [List.append_assoc]

theorem fetchChunks_one_pairs (ep : Endpoint) (at' pfx : String) (fuel : Nat) (st : St) :
    (fetchChunks ep at' pfx 1 fuel st).pairs
      = st.pairs ++ ((leafStreams ep at' pfx fuel).map List.flatten).flatten := by
  show ((List.range 256).foldl (fun s i => fetchChunks ep at' (pfx ++ toHex2 i) 0 fuel s) st).pairs
    = _
  rw [foldl_chunkBase_pairs]
  simp [leafStreams, List.map_map, Function.comp_def]

theorem flatten_set_cons {α : Type} :
    ∀ (streams : List (List α)) (i : Nat) (b : α) (rest : List α),
      streams.getD i [] = b :: rest →
      streams.flatten.Perm (b :: (streams.set i rest).flatten)
  | [], i, b, rest, h => by simp at h
  | s :: ss, 0, b, rest, h => by
    have hs : s = b :: rest := by simpa using h
    subst hs
    exact List.Perm.refl _
  | s :: ss, i + 1, b, rest, h => by
    have h' : ss.getD i [] = b :: rest := by simpa using h
    show (s ++ ss.flatten).Perm (b :: (s ++ (ss.set i rest).flatten))
    refine ((flatten_set_cons ss i b rest h').append_left s).trans ?_
    exact List.perm_middle

theorem perm_flatten_congr {α : Type} {l₁ l₂ : List (List α)} (h : l₁.Perm l₂) :
    l₁.flatten.Perm l₂.flatten := by
  induction h with
  | nil => exact List.Perm.refl _
  | cons x _ ih => exact ih.append_left x
  | swap x y l =>
    show (y ++ (x ++ l.flatten)).Perm (x ++ (y ++ l.flatten))
    rw [← List.append_assoc, ← List.append_assoc]
    exact List.perm_append_comm.append_right _
  | trans _ _ ih₁ ih₂ => exact ih₁.trans ih₂

theorem drainTake_perm {α : Type} :
    ∀ (σ : List Nat) (streams : List (List α)),
      (∀ s ∈ drainRest streams σ, s = []) →
      (drainTake streams σ).Perm streams.flatten
  | [], streams, h => by
    have hempty : streams.flatten = [] := List.flatten_eq_nil_iff.mpr h
    rw [show drainTake streams ([] : List Nat) = [] from rfl, hempty]
  | i :: σ, streams, h => by
    rcases hm : streams.getD i [] with _ | ⟨b, rest⟩
    · have hrest : ∀ s ∈ drainRest streams σ, s = [] := by
        simpa only [drainRest, hm] using h
      have := drainTake_perm σ streams hrest
      simpa only [drainTake, hm] using this
    · have hrest : ∀ s ∈ drainRest (streams.set i rest) σ, s = [] := by
        simpa only [drainRest, hm] using h
      have hper := drainTake_perm σ (streams.set i rest) hrest
      have hflat := flatten_set_cons streams i b rest hm
      have : (b :: drainTake (streams.set i rest) σ).Perm streams.flatten :=
        (hper.cons b).trans hflat.symm
      simpa only [drainTake, hm] using this

/-- C4: for every endpoint, fixed block reference and fuel, the
`QUICK_MODE` concurrent leaf mode — modeled as draining the 256 child
chunks' batch streams under an arbitrary cooperative schedule that
completes all chunks — produces exactly the same set of (key, value)
pairs as the sequential mode of `fetchChunks` at the same depth-1
subtree. -/
theorem c4_quick_seq_same_set (ep : Endpoint) (at' pfx : String) (fuel : Nat) (σ : List Nat)
    (hdrained : ∀ s ∈ drainRest (leafStreams ep at' pfx fuel) σ, s = []) :
    ∀ p : Pair, p ∈ quickLeafPairs ep at' pfx fuel σ
      ↔ p ∈ (fetchChunks ep at' pfx 1 fuel initSt).pairs := by
  intro p
  have hperm := drainTake_perm σ (leafStreams ep at' pfx fuel) hdrained
  have hq : (quickLeafPairs ep at' pfx fuel σ).Perm
      ((leafStreams ep at' pfx fuel).map List.flatten).flatten := by
    have := perm_flatten_congr hperm
    rw [List.flatten_flatten] at this
    exact this
  rw [fetchChunks_one_pairs]
  show _ ↔ p ∈ initSt.pairs ++ _
  rw [show initSt.pairs = [] from rfl, List.nil_append]
  exact hq.mem_iff

set_option maxRecDepth 10000 in
/-- C4 witness: a one-key namespace, drained by the schedule `[0]`. -/
theorem c4_quick_seq_same_set_witness :
    ("0x000001", some "0xv") ∈ quickLeafPairs oneKeyEp "0x00" "0x" 1 [0]
      ↔ ("0x000001", some "0xv") ∈ (fetchChunks oneKeyEp "0x00" "0x" 1 1 initSt).pairs :=
  c4_quick_seq_same_set oneKeyEp "0x00" "0x" 1 [0] (by decide) ("0x000001", some "0xv")

/-! ## Claim C9: cache reuse skips the fetch phase -/

/-- C9: when the snapshot file already exists, the entire fetch phase is
skipped: a second run performs zero fetch-phase RPCs (no finalized-head
lookup, no key enumeration, no bulk value lookup — the RPC log is empty)
and returns the first run's file contents unchanged. -/
theorem c9_cached_reuse (ep₁ ep₂ : Endpoint) (lvl₁ lvl₂ fuel₁ fuel₂ : Nat) (file : String) :
    (fetchPhase ep₂ lvl₂ fuel₂ true ((fetchPhase ep₁ lvl₁ fuel₁ false file).1)).1
        = (fetchPhase ep₁ lvl₁ fuel₁ false file).1
      ∧ (fetchPhase ep₂ lvl₂ fuel₂ true ((fetchPhase ep₁ lvl₁ fuel₁ false file).1)).2.rpc
        = [] :=
  ⟨rfl, rfl⟩

/-! ## Claim C10: short value lists degrade to nulls, one pair per key -/

/-- C10: when the bulk lookup returns fewer values than keys, the Fetcher
still emits exactly one pair per key: JS indexing past the end of the value
list is total (it yields `undefined`, serialized as `null`), so the emitted
batch equals the batch for the value list padded with nulls — in the
snapshot, a missing value caused by a length mismatch is indistinguishable
from a genuinely deleted key. -/
theorem c10_short_values_padded (keys : List String) (values : List (Option String))
    (hshort : values.length < keys.length) :
    (buildPairs keys values).length = keys.length
      ∧ buildPairs keys values
          = buildPairs keys (values ++ List.replicate (keys.length - values.length) none)
      ∧ ∀ i, values.length ≤ i → i < keys.length →
          (buildPairs keys values)[i]? = some (keys.getD i "", none) := by
  refine ⟨length_buildPairs _ _, ?_, ?_⟩
  · unfold buildPairs
    apply List.map_congr_left
    intro i hi
    have hi' : i < keys.length := List.mem_range.mp hi
    have hv : values.getD i none
        = (values ++ List.replicate (keys.length - values.length) none).getD i none := by
      rw [List.getD_eq_getElem?_getD, List.getD_eq_getElem?_getD, List.getElem?_append]
      rcases Nat.lt_or_ge i values.length with hlt | hge
      · rw [if_pos hlt]
      · rw [if_neg (by omega), List.getElem?_eq_none hge, List.getElem?_replicate,
          if_pos (by omega)]
        rfl
    rw [hv]
  · intro i hge hi
    have hv : values[i]?.getD none = none := by
      rw [List.getElem?_eq_none hge]
      rfl
    simp [buildPairs, List.getElem?_map, List.getElem?_range hi, hv]

/-- C10 witness: 3 keys, 2 values — the third pair carries `null`. -/
theorem c10_short_values_padded_witness :
    (buildPairs ["0xa1", "0xa2", "0xa3"] [some "0x01", some "0x02"])[2]?
      = some ("0xa3", (none : Option String)) := by
  have h := (c10_short_values_padded ["0xa1", "0xa2", "0xa3"] [some "0x01", some "0x02"]
    (by decide)).2.2 2 (by decide) (by decide)
  rw [h]
  decide

/-! ## Claims C7 and C8: the splice step -/

theorem getKey_setKey_self : ∀ (fs : List (String × J)) (k : String) (v : J),
    getKey (setKey fs k v) k = some v
  | [], k, v => by simp [getKey, setKey]
  | (k', v') :: rest, k, v => by
    by_cases h : k' = k
    · simp [setKey, getKey, h]
    · simp only [setKey, if_neg h, getKey]
      exact getKey_setKey_self rest k v

theorem getKey_setKey_other : ∀ (fs : List (String × J)) (k : String) (v : J) (k' : String),
    k ≠ k' → getKey (setKey fs k v) k' = getKey fs k'
  | [], k, v, k', h => by simp [getKey, setKey, h]
  | (k₀, v₀) :: rest, k, v, k', h => by
    by_cases h0 : k₀ = k
    · subst h0
      simp only [setKey, if_pos rfl, getKey, if_neg h]
    · simp only [setKey, if_neg h0, getKey]
      by_cases h1 : k₀ = k'
      · rw [if_pos h1, if_pos h1]
      · rw [if_neg h1, if_neg h1]
        exact getKey_setKey_other rest k v k' h

theorem getKey_delKey_other : ∀ (fs : List (String × J)) (k k' : String),
    k ≠ k' → getKey (delKey fs k) k' = getKey fs k'
  | [], _, _, _ => rfl
  | (k₀, v₀) :: rest, k, k', h => by
    by_cases h0 : k₀ = k
    · subst h0
      simp only [delKey, if_pos rfl, getKey, if_neg (fun he => h (he ▸ rfl) : ¬k₀ = k')]
      exact getKey_delKey_other rest k₀ k' h
    · simp only [delKey, if_neg h0, getKey]
      by_cases h1 : k₀ = k'
      · rw [if_pos h1, if_pos h1]
      · rw [if_neg h1, if_neg h1]
        exact getKey_delKey_other rest k k' h

theorem getKey_modifyKey_self : ∀ (fs : List (String × J)) (k : String) (f : J → J),
    getKey (modifyKey fs k f) k = (getKey fs k).map f
  | [], _, _ => rfl
  | (k₀, v₀) :: rest, k, f => by
    by_cases h0 : k₀ = k
    · simp [modifyKey, getKey, h0]
    · simp only [modifyKey, if_neg h0, getKey, if_neg h0]
      exact getKey_modifyKey_self rest k f

theorem getKey_modifyKey_other : ∀ (fs : List (String × J)) (k : String) (f : J → J)
    (k' : String), k ≠ k' → getKey (modifyKey fs k f) k' = getKey fs k'
  | [], _, _, _, _ => rfl
  | (k₀, v₀) :: rest, k, f, k', h => by
    by_cases h0 : k₀ = k
    · subst h0
      simp only [modifyKey, if_pos rfl, getKey, if_neg (fun he => h (he ▸ rfl) : ¬k₀ = k')]
    · simp only [modifyKey, if_neg h0, getKey]
      by_cases h1 : k₀ = k'
      · rw [if_pos h1, if_pos h1]
      · rw [if_neg h1, if_neg h1]
        exact getKey_modifyKey_other rest k f k' h

theorem getField_setField_other (j : J) (a : String) (v : J) (k : String) (h : a ≠ k) :
    getField (setField j a v) k = getField j k := by
  cases j <;> try rfl
  exact getKey_setKey_other _ a v k h

theorem getField_modifyField_other (j : J) (a : String) (f : J → J) (k : String)
    (h : a ≠ k) : getField (modifyField j a f) k = getField j k := by
  cases j <;> try rfl
  exact getKey_modifyKey_other _ a f k h

theorem getField_modifyField_self (j : J) (a : String) (f : J → J) :
    getField (modifyField j a f) a = (getField j a).map f := by
  cases j <;> try rfl
  exact getKey_modifyKey_self _ a f

theorem getField_delField_other (j : J) (a k : String) (h : a ≠ k) :
    getField (delField j a) k = getField j k := by
  cases j <;> try rfl
  exact getKey_delKey_other _ a k h

theorem getPath_cons (j : J) (h : String) (r : List String) :
    getPath j (h :: r) = match getField j h with
      | some v => getPath v r
      | none => none := rfl

theorem getPath_modifyPath_self : ∀ (p : List String) (j : J) (f : J → J),
    getPath (modifyPath j p f) p = (getPath j p).map f
  | [], _, _ => rfl
  | a :: p', j, f => by
    show getPath (modifyField j a fun v => modifyPath v p' f) (a :: p') = _
    rw [getPath_cons, getPath_cons, getField_modifyField_self]
    cases getField j a with
    | none => rfl
    | some v => exact getPath_modifyPath_self p' v f

theorem getPath_modifyPath_ne (a : String) (p' : List String) (b : String)
    (q' : List String) (j : J) (f : J → J) (h : a ≠ b) :
    getPath (modifyPath j (a :: p') f) (b :: q') = getPath j (b :: q') := by
  show getPath (modifyField j a fun v => modifyPath v p' f) (b :: q') = _
  rw [getPath_cons, getPath_cons, getField_modifyField_other j a _ b h]

theorem getPath_modifyPath_descend (a : String) (p' q' : List String) (j : J) (f : J → J) :
    getPath (modifyPath j (a :: p') f) (a :: q')
      = match getField j a with
        | some v => getPath (modifyPath v p' f) q'
        | none => none := by
  show getPath (modifyField j a fun v => modifyPath v p' f) (a :: q') = _
  rw [getPath_cons, getField_modifyField_self]
  cases getField j a <;> rfl

theorem getPath_setField_other (j : J) (a : String) (v : J) (b : String) (q : List String)
    (h : a ≠ b) : getPath (setField j a v) (b :: q) = getPath j (b :: q) := by
  rw [getPath_cons, getPath_cons, getField_setField_other j a v b h]

theorem topFrame_getField (j : J) (f : J → J) (k : String) (h : k ≠ "genesis") :
    getField (modifyPath j topPath f) k = getField j k := by
  show getField (modifyField j "genesis" _) k = _
  exact getField_modifyField_other j "genesis" _ k (Ne.symm h)

theorem topFrame_genesis (j : J) (f : J → J) (k : String) (h : k ≠ "raw") :
    getPath (modifyPath j topPath f) ["genesis", k] = getPath j ["genesis", k] := by
  rw [show topPath = "genesis" :: ["raw", "top"] from rfl, getPath_modifyPath_descend,
    getPath_cons]
  cases getField j "genesis" with
  | none => rfl
  | some v => exact getPath_modifyPath_ne "raw" ["top"] k [] v f (Ne.symm h)

theorem topFrame_raw (j : J) (f : J → J) (k : String) (h : k ≠ "top") :
    getPath (modifyPath j topPath f) ["genesis", "raw", k]
      = getPath j ["genesis", "raw", k] := by
  rw [show topPath = "genesis" :: ["raw", "top"] from rfl, getPath_modifyPath_descend,
    getPath_cons]
  cases getField j "genesis" with
  | none => rfl
  | some v =>
    show getPath (modifyPath v ["raw", "top"] f) ["raw", k] = getPath v ["raw", k]
    rw [show (["raw", "top"] : List String) = "raw" :: ["top"] from rfl,
      getPath_modifyPath_descend, getPath_cons]
    cases getField v "raw" with
    | none => rfl
    | some w => exact getPath_modifyPath_ne "top" [] k [] w f (Ne.symm h)

theorem topGet_insTop_other (d : J) (kv : String × J) (k' : String) (h : kv.1 ≠ k') :
    topGet (insTop d kv) k' = topGet d k' := by
  unfold topGet insTop
  rw [getPath_modifyPath_self]
  cases getPath d topPath with
  | none => rfl
  | some top => exact getField_setField_other top kv.1 kv.2 k' h

theorem topGet_insTop_self (d : J) (kv : String × J) (h : HasTop d) :
    topGet (insTop d kv) kv.1 = some kv.2 := by
  obtain ⟨ts, hts⟩ := h
  unfold topGet insTop
  rw [getPath_modifyPath_self, hts]
  exact getKey_setKey_self ts kv.1 kv.2

theorem hasTop_insTop (d : J) (kv : String × J) (h : HasTop d) : HasTop (insTop d kv) := by
  obtain ⟨ts, hts⟩ := h
  refine ⟨setKey ts kv.1 kv.2, ?_⟩
  unfold insTop
  rw [getPath_modifyPath_self, hts]
  rfl

theorem topGet_fold_frame (k : String) :
    ∀ (l : List (String × J)) (d : J), (∀ b ∈ l, b.1 ≠ k) →
      topGet (l.foldl insTop d) k = topGet d k
  | [], _, _ => rfl
  | b :: l, d, h => by
    rw [List.foldl_cons,
      topGet_fold_frame k l (insTop d b) (fun b' hb' => h b' (List.mem_cons_of_mem b hb')),
      topGet_insTop_other d b k (h b (List.mem_cons_self b l))]

theorem hasTop_fold :
    ∀ (l : List (String × J)) (d : J), HasTop d → HasTop (l.foldl insTop d)
  | [], _, h => h
  | b :: l, d, h => by
    rw [List.foldl_cons]
    exact hasTop_fold l (insTop d b) (hasTop_insTop d b h)

theorem topGet_fold_mem (k : String) (v : J) :
    ∀ (l : List (String × J)) (d : J), HasTop d → (l.map Prod.fst).Nodup → (k, v) ∈ l →
      topGet (l.foldl insTop d) k = some v
  | [], _, _, _, hmem => absurd hmem (List.not_mem_nil _)
  | b :: l, d, htop, hnodup, hmem => by
    rw [List.foldl_cons]
    rw [List.map_cons] at hnodup
    have hnodup' : (l.map Prod.fst).Nodup := (List.nodup_cons.mp hnodup).2
    rcases List.mem_cons.mp hmem with heq | hmem'
    · have hb : b = (k, v) := heq.symm
      subst hb
      have hknotin : k ∉ l.map Prod.fst := (List.nodup_cons.mp hnodup).1
      have hothers : ∀ b' ∈ l, b'.1 ≠ k := by
        intro b' hb' hk
        exact hknotin (hk ▸ List.mem_map_of_mem Prod.fst hb')
      rw [topGet_fold_frame k l _ hothers]
      exact topGet_insTop_self d (k, v) htop
    · exact topGet_fold_mem k v l (insTop d b) (hasTop_insTop d b htop) hnodup' hmem'

theorem getField_fold_frame (k : String) (hk : k ≠ "genesis") :
    ∀ (l : List (String × J)) (d : J), getField (l.foldl insTop d) k = getField d k
  | [], _ => rfl
  | b :: l, d => by
    rw [List.foldl_cons, getField_fold_frame k hk l (insTop d b)]
    exact topFrame_getField d _ k hk

theorem getPath_fold_frame_genesis (k : String) (hk : k ≠ "raw") :
    ∀ (l : List (String × J)) (d : J),
      getPath (l.foldl insTop d) ["genesis", k] = getPath d ["genesis", k]
  | [], _ => rfl
  | b :: l, d => by
    rw [List.foldl_cons, getPath_fold_frame_genesis k hk l (insTop d b)]
    exact topFrame_genesis d _ k hk

theorem getPath_fold_frame_raw (k : String) (hk : k ≠ "top") :
    ∀ (l : List (String × J)) (d : J),
      getPath (l.foldl insTop d) ["genesis", "raw", k] = getPath d ["genesis", "raw", k]
  | [], _ => rfl
  | b :: l, d => by
    rw [List.foldl_cons, getPath_fold_frame_raw k hk l (insTop d b)]
    exact topFrame_raw d _ k hk

/-- C7: the Splicer inserts into the target document's `genesis.raw.top`
exactly those snapshot pairs whose key starts with at least one allow-list
prefix: a key matching no prefix is left untouched, a matching snapshot
pair (snapshot keys being distinct, as the fetch produces them) lands as
`top[key] = value`, and on the spec's example — snapshot
`[["0xAA01","0x01"],["0xBB01","0x02"]]`, allow-list `["0xAA"]`, empty top —
the result's `genesis.raw.top` contains exactly `0xAA01 -> 0x01`. -/
theorem c7_splice_filter (storage : List (String × J)) (prefixes : List String) (doc : J) :
    (∀ k : String, (∀ pfx ∈ prefixes, jsStartsWith k pfx = false) →
        topGet (spliceInsert storage prefixes doc) k = topGet doc k)
    ∧ (∀ (k : String) (v : J), HasTop doc → (storage.map Prod.fst).Nodup →
        (k, v) ∈ storage → (∃ pfx ∈ prefixes, jsStartsWith k pfx = true) →
        topGet (spliceInsert storage prefixes doc) k = some v)
    ∧ spliceInsert exStorage exAllow exDoc = exResult := by
  refine ⟨?_, ?_, by rfl⟩
  · intro k hk
    unfold spliceInsert
    apply topGet_fold_frame
    intro b hb hbk
    obtain ⟨hbs, hmatch⟩ := List.mem_filter.mp hb
    rw [hbk] at hmatch
    obtain ⟨pfx, hpfx, hstart⟩ := List.any_eq_true.mp hmatch
    rw [hk pfx hpfx] at hstart
    exact Bool.false_ne_true hstart
  · intro k v htop hnodup hmem hmatch
    unfold spliceInsert
    apply topGet_fold_mem
    · exact htop
    · exact hnodup.sublist ((List.filter_sublist _).map Prod.fst)
    · apply List.mem_filter.mpr
      refine ⟨hmem, List.any_eq_true.mpr ?_⟩
      obtain ⟨pfx, hpfx, hstart⟩ := hmatch
      exact ⟨pfx, hpfx, hstart⟩

/-- C7 witness: the spec's example — the matching pair is inserted. -/
theorem c7_splice_filter_witness :
    topGet (spliceInsert exStorage exAllow exDoc) "0xAA01" = some (J.str "0x01") :=
  (c7_splice_filter exStorage exAllow exDoc).2.1 "0xAA01" (J.str "0x01")
    ⟨[], rfl⟩ (by decide) (List.mem_cons_self _ _)
    ⟨"0xAA", List.mem_cons_self _ _, by decide⟩

/-- C8: the splice step modifies only the nested `genesis.raw.top` map
(adds, overwrites and one deletion) and the three top-level scalar fields
`name`, `id` and `protocolId`: every other top-level field, every other
field of `genesis`, and every other field of `genesis.raw` of the target
document is unchanged in the output. -/
theorem c8_splice_frame (forked orig : J) (storage : List (String × J))
    (prefixes : List String) (hex alice : String) :
    (∀ k : String, k ≠ "name" → k ≠ "id" → k ≠ "protocolId" → k ≠ "genesis" →
        getField (spliceStep forked orig storage prefixes hex alice) k = getField forked k)
    ∧ (∀ k : String, k ≠ "raw" →
        getPath (spliceStep forked orig storage prefixes hex alice) ["genesis", k]
          = getPath forked ["genesis", k])
    ∧ (∀ k : String, k ≠ "top" →
        getPath (spliceStep forked orig storage prefixes hex alice) ["genesis", "raw", k]
          = getPath forked ["genesis", "raw", k]) := by
  refine ⟨?_, ?_, ?_⟩
  · intro k hk1 hk2 hk3 hk4
    simp only [spliceStep, spliceInsert]
    split
    <;> simp only [topFrame_getField _ _ k hk4, getField_fold_frame k hk4,
        getField_setField_other _ "protocolId" _ k (Ne.symm hk3),
        getField_setField_other _ "id" _ k (Ne.symm hk2),
        getField_setField_other _ "name" _ k (Ne.symm hk1)]
  · intro k hk
    simp only [spliceStep, spliceInsert]
    split
    <;> simp only [topFrame_genesis _ _ k hk, getPath_fold_frame_genesis k hk,
        getPath_setField_other _ "protocolId" _ "genesis" _ (by decide),
        getPath_setField_other _ "id" _ "genesis" _ (by decide),
        getPath_setField_other _ "name" _ "genesis" _ (by decide)]
  · intro k hk
    simp only [spliceStep, spliceInsert]
    split
    <;> simp only [topFrame_raw _ _ k hk, getPath_fold_frame_raw k hk,
        getPath_setField_other _ "protocolId" _ "genesis" _ (by decide),
        getPath_setField_other _ "id" _ "genesis" _ (by decide),
        getPath_setField_other _ "name" _ "genesis" _ (by decide)]

/-- C8 witness: an unrelated top-level field survives the splice. -/
theorem c8_splice_frame_witness :
    getField (spliceStep exForked exOriginal exStorage exAllow "00aabb" "") "bootNodes"
      = getField exForked "bootNodes" :=
  (c8_splice_frame exForked exOriginal exStorage exAllow "00aabb" "").1 "bootNodes"
    (by decide) (by decide) (by decide) (by decide)

/-! ## Claim C2: the chunk partition -/

theorem strAppend_empty (s : String) : s ++ "" = s := by
  apply String.ext
  simp [String.data_append]

set_option maxRecDepth 10000 in
theorem toHex2_eq (b : Nat) (hb : b < 256) :
    toHex2 b = String.mk [Nat.digitChar (b / 16), Nat.digitChar (b % 16)] := by
  have h : ∀ b' < 256, toHex2 b'
      = String.mk [Nat.digitChar (b' / 16), Nat.digitChar (b' % 16)] := by decide
  exact h b hb

theorem toHex2_data (b : Nat) (hb : b < 256) :
    (toHex2 b).data = [Nat.digitChar (b / 16), Nat.digitChar (b % 16)] := by
  rw [toHex2_eq b hb]

theorem digitChar_lt (a b : Nat) (hab : a < b) (hb : b < 16) :
    Nat.digitChar a < Nat.digitChar b := by
  have h : ∀ a' < 16, ∀ b' < 16, a' < b' → Nat.digitChar a' < Nat.digitChar b' := by decide
  exact h a (lt_trans hab hb) b hb hab

theorem digitChar_inj (a b : Nat) (ha : a < 16) (hb : b < 16)
    (h : Nat.digitChar a = Nat.digitChar b) : a = b := by
  have hd : ∀ a' < 16, ∀ b' < 16, Nat.digitChar a' = Nat.digitChar b' → a' = b' := by decide
  exact hd a ha b hb h

theorem lex_append_left (xs : List Char) : ∀ {as bs : List Char},
    List.Lex (· < ·) as bs → List.Lex (· < ·) (xs ++ as) (xs ++ bs) := by
  induction xs with
  | nil => exact fun h => h
  | cons c xs ih => exact fun h => List.Lex.cons (ih h)

theorem strLex_append_toHex2 (p : String) (i j : Nat) (hij : i < j) (hj : j < 256) :
    strLex (p ++ toHex2 i) (p ++ toHex2 j) := by
  unfold strLex
  rw [String.data_append, String.data_append]
  apply lex_append_left
  rw [toHex2_data i (lt_trans hij hj), toHex2_data j hj]
  rcases Nat.lt_or_ge (i / 16) (j / 16) with hdiv | hdiv
  · exact List.Lex.rel (digitChar_lt _ _ hdiv (by omega))
  · have hdeq : i / 16 = j / 16 :=
      le_antisymm (Nat.div_le_div_right (le_of_lt hij)) hdiv
    have hmod : i % 16 < j % 16 := by omega
    rw [hdeq]
    exact List.Lex.cons (List.Lex.rel (digitChar_lt _ _ hmod (by omega)))

theorem childPrefixes_length (p : String) : (childPrefixes p).length = 256 := by
  simp [childPrefixes]

theorem childPrefixes_sorted (p : String) : (childPrefixes p).Pairwise strLex := by
  unfold childPrefixes
  rw [List.pairwise_iff_getElem]
  intro i j hi hj hij
  simp only [List.length_map, List.length_range] at hi hj
  simp only [List.getElem_map, List.getElem_range]
  exact strLex_append_toHex2 p i j hij hj

theorem hexEncode_append : ∀ (a b : List Nat), hexEncode (a ++ b) = hexEncode a ++ hexEncode b
  | [], b => (strEmpty_append _).symm
  | x :: a, b => by
    show toHex2 x ++ hexEncode (a ++ b) = toHex2 x ++ hexEncode a ++ hexEncode b
    rw [hexEncode_append a b, strAppend_assoc]

theorem hexEncode_data_length : ∀ (bs : List Nat), (∀ b ∈ bs, b < 256) →
    (hexEncode bs).data.length = 2 * bs.length
  | [], _ => rfl
  | x :: bs, h => by
    show (toHex2 x ++ hexEncode bs).data.length = _
    rw [String.data_append, List.length_append, toHex2_data x (h x (List.mem_cons_self x bs)),
      hexEncode_data_length bs (fun b hb => h b (List.mem_cons_of_mem x hb))]
    simp only [List.length_cons, List.length_nil]
    omega

theorem hexEncode_inj : ∀ (a b : List Nat), (∀ x ∈ a, x < 256) → (∀ x ∈ b, x < 256) →
    a.length = b.length → hexEncode a = hexEncode b → a = b
  | [], [], _, _, _, _ => rfl
  | [], _ :: _, _, _, hlen, _ => by simp at hlen
  | _ :: _, [], _, _, hlen, _ => by simp at hlen
  | x :: a, y :: b, ha, hb, hlen, heq => by
    have hx : x < 256 := ha x (List.mem_cons_self x a)
    have hy : y < 256 := hb y (List.mem_cons_self y b)
    have hd : (toHex2 x).data ++ (hexEncode a).data
        = (toHex2 y).data ++ (hexEncode b).data := by
      have h := congrArg String.data heq
      simpa [hexEncode, String.data_append] using h
    rw [toHex2_data x hx, toHex2_data y hy] at hd
    injection hd with h1 hd'
    injection hd' with h2 hd''
    have hdiv : x / 16 = y / 16 := digitChar_inj _ _ (by omega) (by omega) h1
    have hmod : x % 16 = y % 16 := digitChar_inj _ _ (by omega) (by omega) h2
    have hxy : x = y := by omega
    subst hxy
    have htail : hexEncode a = hexEncode b := String.ext hd''
    rw [hexEncode_inj a b (fun z hz => ha z (List.mem_cons_of_mem x hz))
      (fun z hz => hb z (List.mem_cons_of_mem x hz)) (by simpa using hlen) htail]

theorem byteLists_length : ∀ d, (byteLists d).length = 256 ^ d
  | 0 => rfl
  | d + 1 => by
    simp only [byteLists, List.length_flatten, List.map_map]
    rw [List.map_congr_left
      (fun b _ => by simp : ∀ b ∈ List.range 256,
        (List.length ∘ fun b => (byteLists d).map (fun bs => b :: bs)) b
          = (byteLists d).length)]
    rw [List.map_const', List.sum_replicate, List.length_range, smul_eq_mul,
      byteLists_length d]
    rw [pow_succ, Nat.mul_comm]

theorem mem_byteLists : ∀ (d : Nat) (bs : List Nat),
    bs ∈ byteLists d ↔ bs.length = d ∧ ∀ b ∈ bs, b < 256
  | 0, bs => by
    constructor
    · intro h
      have : bs = [] := by simpa [byteLists] using h
      subst this
      simp
    · intro ⟨hl, _⟩
      have : bs = [] := List.length_eq_zero.mp hl
      subst this
      simp [byteLists]
  | d + 1, bs => by
    simp only [byteLists, List.mem_flatten, List.mem_map]
    constructor
    · rintro ⟨l, ⟨b, hb, rfl⟩, hmem⟩
      obtain ⟨bs', hbs', rfl⟩ := List.mem_map.mp hmem
      have h' := (mem_byteLists d bs').mp hbs'
      refine ⟨by simp [h'.1], ?_⟩
      intro x hx
      rcases List.mem_cons.mp hx with rfl | hx'
      · exact List.mem_range.mp hb
      · exact h'.2 x hx'
    · rintro ⟨hlen, hbound⟩
      cases bs with
      | nil => simp at hlen
      | cons b bs' =>
        refine ⟨(byteLists d).map (fun bs => b :: bs),
          ⟨b, List.mem_range.mpr (hbound b (List.mem_cons_self b bs')), rfl⟩, ?_⟩
        exact List.mem_map.mpr ⟨bs', (mem_byteLists d bs').mpr
          ⟨by simpa using hlen, fun x hx => hbound x (List.mem_cons_of_mem b hx)⟩, rfl⟩

theorem leafChunks_eq : ∀ (d : Nat) (p : String),
    leafChunks p d = (byteLists d).map (fun bs => p ++ hexEncode bs)
  | 0, p => by
    show [p] = [p ++ hexEncode []]
    rw [show hexEncode [] = "" from rfl, strAppend_empty]
  | d + 1, p => by
    simp only [leafChunks, byteLists, childPrefixes, List.map_flatten, List.map_map]
    congr 1
    apply List.map_congr_left
    intro b _
    simp only [Function.comp]
    rw [leafChunks_eq d (p ++ toHex2 b), List.map_map]
    apply List.map_congr_left
    intro bs _
    simp only [Function.comp]
    show p ++ toHex2 b ++ hexEncode bs = p ++ (toHex2 b ++ hexEncode bs)
    rw [strAppend_assoc]

theorem leafChunks_length (p : String) (d : Nat) : (leafChunks p d).length = 256 ^ d := by
  rw [leafChunks_eq, List.length_map, byteLists_length]

/-- Every key of at least `d` bytes under the root prefix extends exactly
one depth-`d` leaf-chunk prefix. -/
theorem leafChunks_partition (d : Nat) (kb : List Nat) (hbound : ∀ b ∈ kb, b < 256)
    (hlen : d ≤ kb.length) :
    ∃! p, p ∈ leafChunks "0x" d ∧ jsStartsWith ("0x" ++ hexEncode kb) p = true := by
  have htake_len : (kb.take d).length = d := by
    rw [List.length_take]
    omega
  have htake_bound : ∀ b ∈ kb.take d, b < 256 := fun b hb =>
    hbound b (List.mem_of_mem_take hb)
  have hmem : "0x" ++ hexEncode (kb.take d) ∈ leafChunks "0x" d := by
    rw [leafChunks_eq]
    exact List.mem_map.mpr ⟨kb.take d, (mem_byteLists d _).mpr ⟨htake_len, htake_bound⟩, rfl⟩
  have hsplit : hexEncode kb = hexEncode (kb.take d) ++ hexEncode (kb.drop d) := by
    rw [← hexEncode_append, List.take_append_drop]
  have hpre : jsStartsWith ("0x" ++ hexEncode kb) ("0x" ++ hexEncode (kb.take d)) = true := by
    unfold jsStartsWith
    apply List.isPrefixOf_iff_prefix.mpr
    refine ⟨(hexEncode (kb.drop d)).data, ?_⟩
    rw [hsplit]
    simp [String.data_append, List.append_assoc]
  have hlen₀ : ∀ q ∈ leafChunks "0x" d, q.data.length = 2 + 2 * d := by
    intro q hq
    rw [leafChunks_eq] at hq
    obtain ⟨bs, hbs, rfl⟩ := List.mem_map.mp hq
    obtain ⟨hbl, hbb⟩ := (mem_byteLists d bs).mp hbs
    rw [String.data_append, List.length_append, hexEncode_data_length bs hbb, hbl]
    have h0x : ("0x" : String).data.length = 2 := rfl
    omega
  refine ⟨"0x" ++ hexEncode (kb.take d), ⟨hmem, hpre⟩, ?_⟩
  rintro q ⟨hqmem, hqpre⟩
  have hq1 : q.data <+: ("0x" ++ hexEncode kb).data := List.isPrefixOf_iff_prefix.mp hqpre
  have hp1 : ("0x" ++ hexEncode (kb.take d)).data <+: ("0x" ++ hexEncode kb).data :=
    List.isPrefixOf_iff_prefix.mp hpre
  have hql : q.data.length = 2 + 2 * d := hlen₀ q hqmem
  have hpl : ("0x" ++ hexEncode (kb.take d)).data.length = 2 + 2 * d := hlen₀ _ hmem
  have hqp : q.data <+: ("0x" ++ hexEncode (kb.take d)).data :=
    List.prefix_of_prefix_length_le hq1 hp1 (by omega)
  exact String.ext (hqp.eq_of_length (by omega))

theorem fetchChunks_children (ep : Endpoint) (at' pfx : String) (l fuel : Nat) (st : St) :
    fetchChunks ep at' pfx (l + 1) fuel st
      = (childPrefixes pfx).foldl (fun s c => fetchChunks ep at' c l fuel s) st := by
  show (List.range 256).foldl (fun s i => fetchChunks ep at' (pfx ++ toHex2 i) l fuel s) st = _
  rw [childPrefixes, List.foldl_map]

/-- C2: the recursive case of `fetchChunks` generates exactly 256 child
prefixes by appending each byte value `00`..`ff` (two lowercase hex digits)
to the prefix, in lexicographic order, recursing into each child at
`levelsRemaining - 1`; consequently at every depth `d ≥ 0` the number of
leaf chunks is exactly `256 ^ d` (the script's `totalChunks`), and the leaf
prefixes partition the key namespace with no overlap and no gap: every key
of at least `d` bytes under the root prefix `0x` extends exactly one leaf
prefix. -/
theorem c2_partition :
    (∀ (ep : Endpoint) (at' pfx : String) (l fuel : Nat) (st : St),
        fetchChunks ep at' pfx (l + 1) fuel st
          = (childPrefixes pfx).foldl (fun s c => fetchChunks ep at' c l fuel s) st)
    ∧ (∀ pfx : String, (childPrefixes pfx).length = 256
        ∧ (childPrefixes pfx).Pairwise strLex
        ∧ childPrefixes pfx = (List.range 256).map (fun i => pfx ++ toHex2 i))
    ∧ (∀ d : Nat, (leafChunks "0x" d).length = 256 ^ d
        ∧ (leafChunks "0x" d).length = totalChunks d)
    ∧ (∀ (d : Nat) (kb : List Nat), (∀ b ∈ kb, b < 256) → d ≤ kb.length →
        ∃! p, p ∈ leafChunks "0x" d ∧ jsStartsWith ("0x" ++ hexEncode kb) p = true) :=
  ⟨fetchChunks_children,
    fun pfx => ⟨childPrefixes_length pfx, childPrefixes_sorted pfx, rfl⟩,
    fun d => ⟨leafChunks_length "0x" d, leafChunks_length "0x" d⟩,
    leafChunks_partition⟩

/-- C2 witness: the two-byte key `0x26aa` falls in exactly one of the 256
depth-1 leaf chunks. -/
theorem c2_partition_witness :
    ∃! p, p ∈ leafChunks "0x" 1
      ∧ jsStartsWith ("0x" ++ hexEncode [38, 170]) p = true :=
  c2_partition.2.2.2 1 [38, 170] (by decide) (by decide)

end ForkOff
